import Mathlib

/-!
Shallow embedding of the core of the `api-client` repository (an HTTP request
composer/runner), covering:

* the query-string percent-encoder `urlencoding` (src/app.rs, fn urlencoding);
* effective-request assembly: `build_url_with_params` and `get_headers`
  (src/app.rs, App::build_url_with_params / App::get_headers);
* HTTP-call construction in `execute_request` (src/request.rs and the
  identical copy in src/app.rs): method selection, header attachment, and
  the body-attachment guard;
* response classification and body post-processing in `App::send_request`
  (src/app.rs): status-code bucketing, the oversize-body guard at
  `MAX_RESPONSE_DISPLAY_BYTES`, JSON pretty-printing, and the transport
  failure record;
* the workspace store (src/app.rs): `scan_folder`, `save_request`,
  `load_request`, `delete_request`, modelled over an explicit folder-local
  filesystem.

Rust machine integers are modelled as `Nat` (status codes are `u16`, byte
lengths `usize`; no arithmetic here can overflow or wrap).  Fallible
operations return `Option`.  `serde_json` serialization of a `SavedRequest`
is modelled structurally: a written file stores the `SavedRequest` value
itself, since `serde_json::to_string_pretty` followed by `from_str` is the
identity on this struct and no claim inspects the raw JSON text.  JSON
parsing/pretty-printing of arbitrary response bodies is abstracted by an
explicit parser/printer pair passed as parameters.
-/

/-- HTTP methods supported by the client (src/app.rs `enum HttpMethod`). -/
inductive HttpMethod where
  | Get
  | Post
  | Put
  | Delete
  | Patch
deriving DecidableEq, Repr

/-- Rust `HttpMethod::as_str` (src/app.rs). -/
def HttpMethod.as_str : HttpMethod → String
  | .Get => "GET"
  | .Post => "POST"
  | .Put => "PUT"
  | .Delete => "DELETE"
  | .Patch => "PATCH"

/-- Uppercase hexadecimal digit for a value `< 16`, as produced by Rust's
`{:02X}` formatting (digits `0`-`9` then `A`-`F`). -/
def hexDigitChar (n : Nat) : Char :=
  if n < 10 then Char.ofNat (48 + n) else Char.ofNat (55 + n)

/-- Most-significant-first uppercase hexadecimal digits of `n`, prepended to
`acc`; the recursion mirrors how Rust's `{:X}` formatting renders a number,
totalized by a fuel argument (any fuel above `n` suffices, see
`toHexAux_fuel`). -/
def toHexAux : Nat → Nat → List Char → List Char
  | 0, _, acc => acc
  | fuel + 1, n, acc =>
    if n < 16 then
      hexDigitChar n :: acc
    else
      toHexAux fuel (n / 16) (hexDigitChar (n % 16) :: acc)

/-- Uppercase hexadecimal digit list of `n` (no padding). -/
def hexDigitsOf (n : Nat) : List Char :=
  toHexAux (n + 1) n []

/-- Rust `format!("{:02X}", n)`: uppercase hexadecimal of `n`, zero-padded on
the left to a minimum width of two digits. -/
def rustHex02X (n : Nat) : List Char :=
  List.replicate (2 - (hexDigitsOf n).length) '0' ++ hexDigitsOf n

/-- Rust `fn urlencoding` (src/app.rs), one character: ASCII alphanumerics and
`-`, `_`, `.`, `~` pass through, space becomes `+`, everything else becomes
`%` followed by `{:02X}` of the character's Unicode code point. -/
def encodeChar (c : Char) : String :=
  if ('a' ≤ c ∧ c ≤ 'z') ∨ ('A' ≤ c ∧ c ≤ 'Z') ∨ ('0' ≤ c ∧ c ≤ '9')
      ∨ c = '-' ∨ c = '_' ∨ c = '.' ∨ c = '~' then
    String.singleton c
  else if c = ' ' then
    "+"
  else
    String.mk ('%' :: rustHex02X c.toNat)

/-- Rust `fn urlencoding` (src/app.rs): per-character encoding collected into
one string. -/
def urlencoding (s : String) : String :=
  String.join (s.data.map encodeChar)

/-- Rust `str::is_empty`, computed on the character list (a string's UTF-8
encoding is empty exactly when its character list is). -/
def rustIsEmpty (s : String) : Bool :=
  s.data.isEmpty

/-- ASCII uppercase of one character; Rust `str::to_uppercase` is
Unicode-aware but agrees with this on ASCII, and it is only ever applied to
stored method strings here. -/
def asciiToUpper (c : Char) : Char :=
  if 'a' ≤ c ∧ c ≤ 'z' then Char.ofNat (c.toNat - 32) else c

/-- Rust `str::to_uppercase`, restricted to ASCII (see `asciiToUpper`). -/
def strToUpper (s : String) : String :=
  String.mk (s.data.map asciiToUpper)

/-- Rust `str::ends_with`, as a suffix test on the character list (UTF-8
byte suffixes of well-formed strings coincide with character suffixes). -/
def strEndsWith (s suf : String) : Bool :=
  List.isSuffixOf suf.data s.data

/-- One parameter or header editor row: key, value, enabled flag
(src/app.rs `KeyValuePair`, with the text inputs read out as strings). -/
structure KVRow where
  key : String
  value : String
  enabled : Bool
deriving DecidableEq, Repr

/-- Rust `App::build_url_with_params` (src/app.rs): keep enabled rows, read
them out as pairs, drop empty keys; if nothing is left return the base URL,
otherwise join `urlencoding(k)=urlencoding(v)` pieces with `&` and append
with `&` when the base URL already contains `?`, else with `?`. -/
def build_url_with_params (base_url : String) (params : List KVRow) : String :=
  let ps := ((params.filter (fun p => p.enabled)).map
      (fun p => (p.key, p.value))).filter (fun kv => ¬ rustIsEmpty kv.1)
  if ps.isEmpty then
    base_url
  else
    let query := String.intercalate "&"
      (ps.map (fun kv => urlencoding kv.1 ++ "=" ++ urlencoding kv.2))
    if base_url.data.contains '?' then
      base_url ++ "&" ++ query
    else
      base_url ++ "?" ++ query

/-- Rust `App::get_headers` (src/app.rs): enabled rows, read out as pairs,
empty keys dropped. -/
def get_headers (headers : List KVRow) : List (String × String) :=
  ((headers.filter (fun h => h.enabled)).map
      (fun h => (h.key, h.value))).filter (fun kv => ¬ rustIsEmpty kv.1)

/-- The outbound HTTP call as assembled by `execute_request`
(src/request.rs): the chosen verb and URL, the ordered header list attached
to the builder, and the body attached to the builder (`none` when the
builder was sent without a body). -/
structure BuiltRequest where
  method : HttpMethod
  url : String
  headers : List (String × String)
  body : Option String
deriving DecidableEq, Repr

/-- Request construction of Rust `execute_request` (src/request.rs lines
11-32): pick the verb, attach every header in order, and attach the body
only when it is non-empty and the method is POST, PUT or PATCH. -/
def execute_build (url : String) (method : HttpMethod) (body : String)
    (headers : List (String × String)) : BuiltRequest :=
  { method := method
    url := url
    headers := headers
    body :=
      if ¬ rustIsEmpty body ∧
          (method = .Post ∨ method = .Put ∨ method = .Patch) then
        some body
      else
        none }

/-- Rust `MAX_RESPONSE_DISPLAY_BYTES` (src/app.rs). -/
def MAX_RESPONSE_DISPLAY_BYTES : Nat := 100000

/-- Byte length of a string's UTF-8 encoding, which is what Rust
`String::len` (used as `body.len()` in `App::send_request`) returns. -/
def rustLen (s : String) : Nat :=
  s.data.foldl (fun n c => n + c.utf8Size) 0

/-- Status classification in `App::send_request` (src/app.rs lines
410-418): the exact `if`-chain over the status code. -/
def statusText (status : Nat) : String :=
  if 200 ≤ status ∧ status < 300 then
    "OK"
  else if 400 ≤ status ∧ status < 500 then
    "Client Error"
  else if 500 ≤ status then
    "Server Error"
  else
    "Response"

/-- Result of one dispatch as stored by `App::send_request` (src/app.rs):
`response_status` split into its code and label, `response_body`, and
`response_is_large`.  (`response_time` is measured independently of the
result and is not constrained by any claim.) -/
structure ResponseRecord where
  status_code : Nat
  status_label : String
  body : String
  body_oversized : Bool
deriving DecidableEq, Repr

/-- Completion handling of `App::send_request` (src/app.rs lines 408-438),
as a function of the `Result` produced by `execute_request`.  JSON handling
is abstracted: `parse` models `serde_json::from_str::<Value>` and `pretty`
models `serde_json::to_string_pretty` (with `Option.getD` mirroring
`unwrap_or(body)`).  On `Ok`, classify the status, set the oversize flag
from the byte length, and pretty-print small JSON bodies; on `Err`, store
status 0, label `"Error"`, and `"Error: "` plus the message. -/
def applyResult {J : Type} (parse : String → Option J) (pretty : J → Option String)
    (result : Except String (Nat × String)) : ResponseRecord :=
  match result with
  | .ok (status, body) =>
    let oversized := decide (rustLen body > MAX_RESPONSE_DISPLAY_BYTES)
    { status_code := status
      status_label := statusText status
      body :=
        if oversized then
          body
        else
          match parse body with
          | some json => (pretty json).getD body
          | none => body
      body_oversized := oversized }
  | .error e =>
    { status_code := 0
      status_label := "Error"
      body := "Error: " ++ e
      body_oversized := false }

/-- On-disk saved request file format (src/types.rs `struct SavedRequest`).
The Rust `headers: HashMap<String, String>` is modelled as an association
list with pairwise-distinct keys maintained by `hmInsert`; iteration order
is arbitrary in Rust, and every use below is order-insensitive. -/
structure SavedRequest where
  name : String
  method : String
  url : String
  headers : List (String × String)
  body : String
deriving DecidableEq, Repr

/-- Rust `HashMap::insert` on the association-list model: replace the value
in place when the key is present, otherwise append the new pair. -/
def hmInsert (m : List (String × String)) (k v : String) :
    List (String × String) :=
  if m.any (fun kv => kv.1 = k) then
    m.map (fun kv => if kv.1 = k then (k, v) else kv)
  else
    m ++ [(k, v)]

/-- Sidebar file entry (src/types.rs `struct FileEntry`); `path` is the
absolute path as a string. -/
structure FileEntry where
  name : String
  path : String
  method : Option HttpMethod
deriving DecidableEq, Repr

/-- Splits a character list at its last `'.'`: returns the part before and
the part after, or `none` when there is no `'.'` at all. -/
def lastDotSplit : List Char → Option (List Char × List Char)
  | [] => none
  | c :: rest =>
    match lastDotSplit rest with
    | some (b, a) => some (c :: b, a)
    | none => if c = '.' then some ([], rest) else none

/-- Rust `Path::file_stem` / `Path::extension` on a bare file name: split at
the last `'.'`, except that a lone leading dot (hidden file, e.g.
`".gitignore"`) yields no extension. -/
def fileSplit (cs : List Char) : List Char × Option (List Char) :=
  match lastDotSplit cs with
  | none => (cs, none)
  | some (b, a) => if b = [] then (cs, none) else (b, some a)

/-- Rust `path.file_stem()` of a bare file name (src/app.rs `scan_folder`
derives the entry's display name from it). -/
def fileStem (fn : String) : String :=
  String.mk (fileSplit fn.data).1

/-- Rust `path.extension()` of a bare file name. -/
def fileExt (fn : String) : Option String :=
  (fileSplit fn.data).2.map String.mk

/-- Rust `PathBuf::join` of a folder and a bare file name. -/
def joinPath (folder fn : String) : String :=
  folder ++ "/" ++ fn

/-- The scanned folder's contents: bare file name to parsed file content.
Files whose text fails to parse as a `SavedRequest` are outside this model
(they would be listed with `method = none`; no claim depends on them), so a
stored file is represented by its parsed `SavedRequest` value directly. -/
abbrev Fs : Type := List (String × SavedRequest)

/-- Whether a file with the given bare name exists in the folder. -/
def fsHas (fs : Fs) (fn : String) : Bool :=
  List.any fs (fun f => f.1 = fn)

/-- Rust `std::fs::write`: replace the content when the file exists,
otherwise create it. -/
def fsWrite (fs : Fs) (fn : String) (content : SavedRequest) : Fs :=
  if fsHas fs fn then
    List.map (fun f => if f.1 = fn then (fn, content) else f) fs
  else
    List.append fs [(fn, content)]

/-- Rust `std::fs::read_to_string` plus `serde_json::from_str`: the parsed
content of the named file, when present. -/
def fsGet (fs : Fs) (fn : String) : Option SavedRequest :=
  (List.find? (fun f => f.1 = fn) fs).map (fun f => f.2)

/-- Rust `std::fs::remove_file` on the folder model: drop the named file. -/
def fsRemove (fs : Fs) (fn : String) : Fs :=
  List.filter (fun f => ¬ f.1 = fn) fs

/-- Bare file name of an absolute path under `folder`, recovering what was
joined by `joinPath` (an artifact of the folder-local filesystem model:
Rust passes the absolute path straight to `std::fs`). -/
def stripFolder (folder path : String) : String :=
  String.mk (path.data.drop (folder.data.length + 1))

/-- Byte-wise lexicographic order of Rust `str::cmp` (as used by
`sort_by(|a, b| a.name.cmp(&b.name))`), taken char-wise: UTF-8 byte order
coincides with code-point order. -/
def lexLe : List Char → List Char → Bool
  | [], _ => true
  | _ :: _, [] => false
  | c :: cs, d :: ds => if c = d then lexLe cs ds else decide (c < d)

/-- Insertion step of the stable sort below: place `x` before the first
element it compares `le` to. -/
def insertSorted {α : Type} (le : α → α → Bool) (x : α) : List α → List α
  | [] => [x]
  | y :: ys => if le x y then x :: y :: ys else y :: insertSorted le x ys

/-- Stable sort by a boolean `le`, modelling Rust's stable
`slice::sort_by`: any two stable sorts agree on every input, so insertion
sort is an exact model of the sort used by `App::scan_folder`. -/
def sortBy {α : Type} (le : α → α → Bool) : List α → List α
  | [] => []
  | x :: xs => insertSorted le x (sortBy le xs)

/-- Method-string decoding of `App::parse_method_from_file` (src/app.rs):
uppercase, match the five verbs, anything else is `None`. -/
def parse_method_str (s : String) : Option HttpMethod :=
  match strToUpper s with
  | "GET" => some .Get
  | "POST" => some .Post
  | "PUT" => some .Put
  | "DELETE" => some .Delete
  | "PATCH" => some .Patch
  | _ => none

/-- Method-string decoding of `App::load_request` (src/app.rs lines
640-647): same match, but unrecognized strings fall back to GET. -/
def load_method_of (s : String) : HttpMethod :=
  match strToUpper s with
  | "GET" => .Get
  | "POST" => .Post
  | "PUT" => .Put
  | "DELETE" => .Delete
  | "PATCH" => .Patch
  | _ => .Get

/-- Extension filter of `App::scan_folder` (src/app.rs lines 520-521):
`path.extension()` unwrapped to `""` when absent, compared against `json`,
`yaml`, `yml`. -/
def eligibleExtB (fn : String) : Bool :=
  let ext := (fileExt fn).getD ""
  ext = "json" || ext = "yaml" || ext = "yml"

/-- Rust `App::scan_folder` (src/app.rs lines 514-538): list the folder,
keep files with extension `json`, `yaml` or `yml`, name each entry by the
file stem, infer its method from the parsed content, and sort by name. -/
def scan_folder (folder : String) (fs : Fs) : List FileEntry :=
  sortBy (fun a b => lexLe a.name.data b.name.data)
    (List.map
      (fun f => { name := fileStem f.1
                  path := joinPath folder f.1
                  method := parse_method_str f.2.method : FileEntry })
      (List.filter (fun f => eligibleExtB f.1) fs))

/-- Application state relevant to the workspace store (fields of
src/app.rs `struct App`): the current folder, the scanned index, the
selection, and the request-composition editor values read out as strings. -/
structure AppState where
  current_folder : Option String
  saved_requests : List FileEntry
  selected_request : Option Nat
  name : String
  method : HttpMethod
  url : String
  body : String
  headers : List KVRow
deriving DecidableEq, Repr

/-- Header serialization loop of `App::save_request` (src/app.rs lines
574-581): fold the editor rows into a `HashMap`, skipping empty keys;
`enabled` is not consulted. -/
def collapse_headers (headers : List KVRow) : List (String × String) :=
  headers.foldl
    (fun m kv => if rustIsEmpty kv.key then m else hmInsert m kv.key kv.value) []

/-- Default-name rule of `App::save_request` (src/app.rs lines 583-588). -/
def effective_name (name : String) (count : Nat) : String :=
  if rustIsEmpty name then "New Request " ++ toString (count + 1) else name

/-- Filename synthesis of `App::save_request` (src/app.rs lines 603-608):
every non-alphanumeric character becomes `-`, then `.json` is appended.
Rust `char::is_alphanumeric` is Unicode-aware; `Char.isAlphanum` agrees
with it on ASCII, and every input exercised here is ASCII. -/
def save_target_name (name : String) : String :=
  String.mk (name.data.map (fun c => if c.isAlphanum then c else '-'))
    ++ ".json"

/-- The `SavedRequest` value serialized by `App::save_request` (src/app.rs
lines 569-596): editor values, the default-name rule applied against the
pre-rescan entry count, headers collapsed to a map. -/
def saved_record_of (st : AppState) : SavedRequest :=
  { name := effective_name st.name st.saved_requests.length
    method := st.method.as_str
    url := st.url
    headers := collapse_headers st.headers
    body := st.body }

/-- Tail of `App::save_request` (src/app.rs lines 611-618): write the file,
rescan the folder (`load_folder`), and move the selection to the entry
whose path matches the just-written path, leaving it unchanged when no
entry matches. -/
def save_write_rescan (folder fn : String) (request : SavedRequest)
    (st : AppState) (fs : Fs) : AppState × Fs :=
  let fs2 := fsWrite fs fn request
  let entries := scan_folder folder fs2
  let path := joinPath folder fn
  let selected :=
    match List.findIdx? (fun e => e.path == path) entries with
    | some i => some i
    | none => st.selected_request
  ({ st with saved_requests := entries, selected_request := selected }, fs2)

/-- Rust `App::save_request` (src/app.rs lines 567-621): a no-op without a
current folder; otherwise serialize the editor state and write either over
the selected entry's path or to a freshly synthesized `safe_name.json`
under the folder, then rescan and re-select.  `none` models the Rust index
panic `self.saved_requests[idx]` on a stale selection; the in-model file
write itself always succeeds. -/
def save_request (st : AppState) (fs : Fs) : Option (AppState × Fs) :=
  match st.current_folder with
  | none => some (st, fs)
  | some folder =>
    let request := saved_record_of st
    match st.selected_request with
    | some idx =>
      match st.saved_requests.get? idx with
      | none => none
      | some entry =>
        some (save_write_rescan folder (stripFolder folder entry.path)
          request st fs)
    | none =>
      some (save_write_rescan folder (save_target_name request.name)
        request st fs)

/-- Rust `App::load_request` (src/app.rs lines 630-675): read and parse the
selected entry's file (no state change on failure), then set name, method
(case-insensitive with GET fallback), URL, body (only when the stored body
is non-empty — an empty stored body leaves the editor body untouched),
replace the header rows with the stored mapping plus one trailing empty
row, and select the index.  The current folder is consulted only to key
into the folder-local filesystem model (Rust reads the absolute path). -/
def load_request (st : AppState) (fs : Fs) (index : Nat) : AppState :=
  match st.current_folder with
  | none => st
  | some folder =>
    match st.saved_requests.get? index with
    | none => st
    | some entry =>
      match fsGet fs (stripFolder folder entry.path) with
      | none => st
      | some request =>
        { st with
          name := request.name
          method := load_method_of request.method
          url := request.url
          body := if ¬ rustIsEmpty request.body then request.body else st.body
          headers :=
            request.headers.map (fun kv => (⟨kv.1, kv.2, true⟩ : KVRow))
              ++ [(⟨"", "", true⟩ : KVRow)]
          selected_request := some index }

/-- Path derivation of `App::delete_request` (src/app.rs lines 681-686):
the file name is the entry's display name, with `.json` appended when the
name does not already end in `.json`. -/
def delete_target_name (name : String) : String :=
  if strEndsWith name ".json" then name else name ++ ".json"

/-- Rust `App::delete_request` (src/app.rs lines 678-709): a no-op without
a current folder or with a stale index; compute the target file name from
the entry's display name, attempt the file removal (state unchanged when
it fails), then drop the entry at `index` and fix up the selection: equal
selection is cleared, a later selection shifts down by one, an earlier one
is untouched. -/
def delete_request (st : AppState) (fs : Fs) (index : Nat) : AppState × Fs :=
  match st.current_folder with
  | none => (st, fs)
  | some _folder =>
    match st.saved_requests.get? index with
    | none => (st, fs)
    | some request =>
      let fn := delete_target_name request.name
      if fsHas fs fn then
        ({ st with
            saved_requests := st.saved_requests.eraseIdx index
            selected_request :=
              match st.selected_request with
              | none => none
              | some selected =>
                if selected = index then none
                else if selected > index then some (selected - 1)
                else some selected },
          fsRemove fs fn)
      else
        (st, fs)

/-- Dropping the empty-key rows beforehand does not change the effective
(enabled, keyed) pair list that `build_url_with_params` and `get_headers`
both compute. -/
theorem effective_pairs_filter_key (l : List KVRow) :
    (((l.filter (fun p => ¬ rustIsEmpty p.key)).filter
        (fun p => p.enabled)).map
        (fun p => (p.key, p.value))).filter (fun kv => ¬ rustIsEmpty kv.1) =
    ((l.filter (fun p => p.enabled)).map
        (fun p => (p.key, p.value))).filter (fun kv => ¬ rustIsEmpty kv.1) := by
  induction l with
  | nil => rfl
  | cons x xs ih =>
    rcases Bool.eq_false_or_eq_true (rustIsEmpty x.key) with hk | hk <;>
      rcases Bool.eq_false_or_eq_true x.enabled with he | he <;>
        simp [List.filter_cons, hk, he] <;> simpa using ih

/-- C3: a failed dispatch (transport error) never aborts the caller — the
completion handler is total on the `Err` branch — and stores the record
with status code 0, label `"Error"`, body `"Error: "` plus the failure
message, and `body_oversized = false`. -/
theorem C3_transport_failure_record {J : Type} (parse : String → Option J)
    (pretty : J → Option String) (e : String) :
    applyResult parse pretty (Except.error e) =
      { status_code := 0
        status_label := "Error"
        body := "Error: " ++ e
        body_oversized := false } := rfl

/-- C4, counterexample: the claim labels every status outside
`[200,300) ∪ [400,500) ∪ [500,600)` as `"Response"`, but the code's final
branch catches every status `≥ 500` with no upper bound, so status 600 is
labelled `"Server Error"`, not `"Response"`. -/
theorem C4_counterexample :
    statusText 600 = "Server Error" ∧ statusText 600 ≠ "Response" := by
  constructor
  · rfl
  · decide

/-- C4, amended: for every status code `s` (any uint16), the label is
`"OK"` exactly when `200 ≤ s < 300`, `"Client Error"` exactly when
`400 ≤ s < 500`, `"Server Error"` exactly when `s ≥ 500` (no upper bound),
and `"Response"` in every other case (`s < 200` or `300 ≤ s < 400`). -/
theorem C4_status_label_buckets (s : Nat) (h : s < 65536) :
    (statusText s = "OK" ↔ 200 ≤ s ∧ s < 300) ∧
    (statusText s = "Client Error" ↔ 400 ≤ s ∧ s < 500) ∧
    (statusText s = "Server Error" ↔ 500 ≤ s) ∧
    (statusText s = "Response" ↔ (s < 200 ∨ (300 ≤ s ∧ s < 400))) := by
  unfold statusText
  split_ifs with h1 h2 h3 <;>
    refine ⟨⟨fun hx => ?_, fun hx => ?_⟩, ⟨fun hx => ?_, fun hx => ?_⟩,
      ⟨fun hx => ?_, fun hx => ?_⟩, ⟨fun hx => ?_, fun hx => ?_⟩⟩ <;>
    first
      | rfl
      | omega
      | exact absurd hx (by decide)

/-- C4, witness: the amended bucketing applied at the concrete status 600. -/
theorem C4_status_label_buckets_witness : statusText 600 = "Server Error" :=
  (C4_status_label_buckets 600 (by omega)).2.2.1.mpr (by omega)

/-- C7: for every request whose method is not POST, PUT or PATCH, the
dispatched call carries no body even when the composed body is non-empty;
`execute_build` is total, so the body is dropped with no error. -/
theorem C7_non_mutating_methods_drop_body (url body : String)
    (headers : List (String × String)) (method : HttpMethod)
    (h : method ≠ .Post ∧ method ≠ .Put ∧ method ≠ .Patch) :
    (execute_build url method body headers).body = none := by
  obtain ⟨h1, h2, h3⟩ := h
  cases method <;> simp_all [execute_build]

/-- C7, witness: a GET with the non-empty body `"payload"` is dispatched
without a body. -/
theorem C7_non_mutating_methods_drop_body_witness :
    (execute_build "http://x" HttpMethod.Get "payload" []).body = none :=
  C7_non_mutating_methods_drop_body "http://x" "payload" [] HttpMethod.Get
    ⟨by decide, by decide, by decide⟩

/-- C8: rows with an empty key are excluded from the effective request —
removing them beforehand changes neither the built URL query nor the sent
header list, whatever their enabled flags — and in particular a GET to
`http://x/y` with parameter rows `("a","1")` and `("","ignored")` yields
the effective URL `http://x/y?a=1`. -/
theorem C8_empty_key_rows_excluded (base_url : String)
    (params headers : List KVRow) :
    build_url_with_params base_url
        (params.filter (fun p => ¬ rustIsEmpty p.key)) =
      build_url_with_params base_url params
    ∧ get_headers (headers.filter (fun h => ¬ rustIsEmpty h.key)) =
      get_headers headers
    ∧ build_url_with_params "http://x/y"
        [⟨"a", "1", true⟩, ⟨"", "ignored", true⟩] = "http://x/y?a=1" := by
  refine ⟨?_, ?_, by decide⟩
  · unfold build_url_with_params
    rw [effective_pairs_filter_key]
  · unfold get_headers
    rw [effective_pairs_filter_key]

/-- C2: whenever the file removal succeeds (current folder set, index in
bounds, target file present), `delete_request` removes the entry at
`index` from the list and fixes the selection: a selection equal to the
deleted index is cleared, a later selection is decremented by one, an
earlier one is unchanged. -/
theorem C2_delete_index_shift (st : AppState) (fs : Fs) (index : Nat)
    (folder : String) (entry : FileEntry)
    (hf : st.current_folder = some folder)
    (he : st.saved_requests.get? index = some entry)
    (hr : fsHas fs (delete_target_name entry.name) = true) :
    (delete_request st fs index).1.saved_requests =
      st.saved_requests.eraseIdx index
    ∧ (st.selected_request = some index →
        (delete_request st fs index).1.selected_request = none)
    ∧ (∀ s, st.selected_request = some s → index < s →
        (delete_request st fs index).1.selected_request = some (s - 1))
    ∧ (∀ s, st.selected_request = some s → s < index →
        (delete_request st fs index).1.selected_request = some s) := by
  have hd : delete_request st fs index =
      ({ st with
          saved_requests := st.saved_requests.eraseIdx index
          selected_request :=
            match st.selected_request with
            | none => none
            | some selected =>
              if selected = index then none
              else if selected > index then some (selected - 1)
              else some selected },
        fsRemove fs (delete_target_name entry.name)) := by
    unfold delete_request
    rw [hf, he]
    simp [hr]
  refine ⟨by rw [hd], fun hs => ?_, fun s hs hlt => ?_, fun s hs hlt => ?_⟩
  · rw [hd]
    simp [hs]
  · rw [hd]
    simp only [hs]
    rw [if_neg (by omega), if_pos (by omega)]
  · rw [hd]
    simp only [hs]
    rw [if_neg (by omega), if_neg (by omega)]

/-- Sample saved-request file content shared by the concrete scenarios. -/
def sr0 : SavedRequest :=
  { name := "a", method := "GET", url := "", headers := [], body := "" }

/-- Two-entry workspace state used to witness the delete index-shift law. -/
def stC2 : AppState :=
  { current_folder := some "/ws"
    saved_requests :=
      [{ name := "a", path := "/ws/a.json", method := some .Get },
       { name := "b", path := "/ws/b.json", method := some .Get }]
    selected_request := some 1
    name := ""
    method := .Get
    url := ""
    body := ""
    headers := [] }

/-- Folder contents matching `stC2`. -/
def fsC2 : Fs := [("a.json", sr0), ("b.json", sr0)]

/-- C2, witness: deleting entry 0 of a two-entry workspace while entry 1 is
selected removes the first entry and shifts the selection down to 0. -/
theorem C2_delete_index_shift_witness :
    (delete_request stC2 fsC2 0).1.saved_requests =
      [{ name := "b", path := "/ws/b.json", method := some .Get }]
    ∧ (delete_request stC2 fsC2 0).1.selected_request = some 0 := by
  have h := C2_delete_index_shift stC2 fsC2 0 "/ws"
    { name := "a", path := "/ws/a.json", method := some .Get }
    rfl rfl (by decide)
  exact ⟨h.1, h.2.2.1 1 rfl (by omega)⟩

/-- Accumulator-generalized byte count of `n` copies of `'a'`. -/
theorem foldl_utf8Size_replicate_a (n k : Nat) :
    List.foldl (fun m c => m + c.utf8Size) k (List.replicate n 'a') = k + n := by
  induction n generalizing k with
  | zero => simp
  | succ n ih =>
    rw [List.replicate_succ, List.foldl_cons, ih]
    have ha : ('a').utf8Size = 1 := by decide
    simp only [ha]
    omega

/-- ASCII probe body of exactly `n` bytes (`n` copies of `'a'`). -/
def repA (n : Nat) : String := String.mk (List.replicate n 'a')

/-- The probe body `repA n` has byte length exactly `n`. -/
theorem rustLen_repA (n : Nat) : rustLen (repA n) = n := by
  have h := foldl_utf8Size_replicate_a n 0
  simpa [rustLen, repA] using h

/-- C6: after a successful dispatch, `body_oversized` holds exactly when
the body's byte length exceeds 100,000 (a 100,001-byte body sets it, a
100,000-byte body does not); an oversized body is stored raw with no
reformatting, and otherwise a JSON-parseable body is replaced by its
indented re-serialization (the `getD` fallback mirrors the code's
`unwrap_or`, whose failure path `serde_json::to_string_pretty` never takes
on a parsed value) while an unparseable body is kept unchanged. -/
theorem C6_oversize_guard {J : Type} (parse : String → Option J)
    (pretty : J → Option String) (s : Nat) (body : String) :
    ((applyResult parse pretty (Except.ok (s, body))).body_oversized = true
        ↔ 100000 < rustLen body)
    ∧ (100000 < rustLen body →
        (applyResult parse pretty (Except.ok (s, body))).body = body)
    ∧ (rustLen body ≤ 100000 → ∀ j, parse body = some j →
        (applyResult parse pretty (Except.ok (s, body))).body =
          (pretty j).getD body)
    ∧ (rustLen body ≤ 100000 → parse body = none →
        (applyResult parse pretty (Except.ok (s, body))).body = body)
    ∧ (applyResult parse pretty
        (Except.ok (s, repA 100001))).body_oversized = true
    ∧ (applyResult parse pretty
        (Except.ok (s, repA 100000))).body_oversized = false := by
  refine ⟨?_, ?_, ?_, ?_, ?_, ?_⟩
  · simp [applyResult, MAX_RESPONSE_DISPLAY_BYTES]
  · intro h
    simp [applyResult, MAX_RESPONSE_DISPLAY_BYTES, h]
  · intro h j hj
    simp [applyResult, MAX_RESPONSE_DISPLAY_BYTES, Nat.not_lt.mpr h, hj]
  · intro h hj
    simp [applyResult, MAX_RESPONSE_DISPLAY_BYTES, Nat.not_lt.mpr h, hj]
  · simp [applyResult, MAX_RESPONSE_DISPLAY_BYTES, rustLen_repA]
  · simp [applyResult, MAX_RESPONSE_DISPLAY_BYTES, rustLen_repA]

/-- Trivial parser instance for the oversize-guard witness. -/
def parseProbe : String → Option Unit := fun _ => some ()

/-- Trivial pretty-printer instance for the oversize-guard witness. -/
def prettyProbe : Unit → Option String := fun _ => some "pretty"

/-- C6, witness: at the concrete bodies `"x"` (parseable, small) and
`repA 100001` / `repA 100000` (either side of the threshold). -/
theorem C6_oversize_guard_witness :
    (applyResult parseProbe prettyProbe (Except.ok (200, "x"))).body = "pretty"
    ∧ (applyResult parseProbe prettyProbe
        (Except.ok (200, repA 100001))).body_oversized = true
    ∧ (applyResult parseProbe prettyProbe
        (Except.ok (200, repA 100000))).body_oversized = false := by
  have h := C6_oversize_guard parseProbe prettyProbe 200 "x"
  exact ⟨h.2.2.1 (by decide) () rfl, h.2.2.2.2.1, h.2.2.2.2.2⟩

/-- Numeric value of an uppercase hexadecimal digit character. -/
def hexDigitVal (c : Char) : Nat :=
  if '0' ≤ c ∧ c ≤ '9' then c.toNat - 48 else c.toNat - 55

/-- Numeric value of an uppercase hexadecimal digit string,
most-significant digit first. -/
def hexVal (ds : List Char) : Nat :=
  ds.foldl (fun v c => 16 * v + hexDigitVal c) 0

/-- Reading back a digit produced by `hexDigitChar` recovers its value. -/
theorem hexDigitVal_hexDigitChar (k : Nat) (h : k < 16) :
    hexDigitVal (hexDigitChar k) = k := by
  interval_cases k <;> decide

/-- Digits produced by `hexDigitChar` are uppercase hexadecimal digits. -/
theorem hexDigitChar_shape (k : Nat) (h : k < 16) :
    ('0' ≤ hexDigitChar k ∧ hexDigitChar k ≤ '9')
      ∨ ('A' ≤ hexDigitChar k ∧ hexDigitChar k ≤ 'F') := by
  interval_cases k <;> first | exact Or.inl (by decide) | exact Or.inr (by decide)

/-- Any fuel above `n` computes the same digits as fuel `n + 1`. -/
theorem toHexAux_fuel (fuel n : Nat) (h : n < fuel) (acc : List Char) :
    toHexAux fuel n acc = toHexAux (n + 1) n acc := by
  induction n using Nat.strong_induction_on generalizing fuel acc with
  | _ n ih =>
    cases fuel with
    | zero => omega
    | succ f =>
      by_cases h16 : n < 16
      · simp [toHexAux, h16]
      · have hn : 16 ≤ n := by omega
        have hdiv : n / 16 < n := Nat.div_lt_self (by omega) (by omega)
        simp only [toHexAux, if_neg h16]
        rw [ih (n / 16) hdiv f (by omega), ih (n / 16) hdiv n (by omega)]

/-- Base case of the digit recursion. -/
theorem hexDigitsOf_base (n : Nat) (h : n < 16) :
    hexDigitsOf n = [hexDigitChar n] := by
  simp [hexDigitsOf, toHexAux, h]

/-- Recursive case of the digit recursion: the digits of `n` are the digits
of `n / 16` followed by the digit of `n % 16`. -/
theorem hexDigitsOf_step (n : Nat) (h : ¬ n < 16) :
    hexDigitsOf n = hexDigitsOf (n / 16) ++ [hexDigitChar (n % 16)] := by
  have hdiv : n / 16 < n := Nat.div_lt_self (by omega) (by omega)
  have haux : ∀ m acc, m < 16 → toHexAux (m + 1) m acc = hexDigitChar m :: acc := by
    intro m acc hm
    simp [toHexAux, hm]
  have hgen : ∀ m, ∀ acc, toHexAux (m + 1) m acc = hexDigitsOf m ++ acc := by
    intro m
    induction m using Nat.strong_induction_on with
    | _ m ihm =>
      intro acc
      by_cases hm : m < 16
      · rw [haux m acc hm, hexDigitsOf_base m hm]
        rfl
      · have hd : m / 16 < m := Nat.div_lt_self (by omega) (by omega)
        have hu : ∀ a : List Char, toHexAux (m + 1) m a =
            toHexAux (m / 16 + 1) (m / 16) (hexDigitChar (m % 16) :: a) := by
          intro a
          simp only [toHexAux, if_neg hm]
          exact toHexAux_fuel m (m / 16) (by omega) _
        rw [hu acc, ihm (m / 16) hd]
        show hexDigitsOf (m / 16) ++ hexDigitChar (m % 16) :: acc =
          hexDigitsOf m ++ acc
        have hm2 : hexDigitsOf m =
            hexDigitsOf (m / 16) ++ [hexDigitChar (m % 16)] := by
          unfold hexDigitsOf
          rw [hu [], ihm (m / 16) hd]
          rfl
        rw [hm2, List.append_assoc]
        rfl
  have hu0 : hexDigitsOf n =
      toHexAux (n / 16 + 1) (n / 16) [hexDigitChar (n % 16)] := by
    unfold hexDigitsOf
    simp only [toHexAux, if_neg h]
    exact toHexAux_fuel n (n / 16) (by omega) _
  rw [hu0, hgen (n / 16)]

/-- There is always at least one digit. -/
theorem hexDigitsOf_length_pos (n : Nat) : 0 < (hexDigitsOf n).length := by
  induction n using Nat.strong_induction_on with
  | _ n ih =>
    by_cases h : n < 16
    · rw [hexDigitsOf_base n h]
      simp
    · rw [hexDigitsOf_step n h]
      simp

/-- Every produced digit is an uppercase hexadecimal digit. -/
theorem hexDigitsOf_shape (n : Nat) :
    ∀ c ∈ hexDigitsOf n,
      ('0' ≤ c ∧ c ≤ '9') ∨ ('A' ≤ c ∧ c ≤ 'F') := by
  induction n using Nat.strong_induction_on with
  | _ n ih =>
    intro c hc
    by_cases h : n < 16
    · rw [hexDigitsOf_base n h] at hc
      rcases List.mem_singleton.mp hc with rfl
      exact hexDigitChar_shape n h
    · rw [hexDigitsOf_step n h] at hc
      rcases List.mem_append.mp hc with hc1 | hc2
      · exact ih (n / 16) (Nat.div_lt_self (by omega) (by omega)) c hc1
      · rcases List.mem_singleton.mp hc2 with rfl
        exact hexDigitChar_shape (n % 16) (Nat.mod_lt n (by omega))

/-- Appending one digit multiplies the value by 16 and adds the digit. -/
theorem hexVal_append_digit (xs : List Char) (c : Char) :
    hexVal (xs ++ [c]) = 16 * hexVal xs + hexDigitVal c := by
  unfold hexVal
  rw [List.foldl_append]
  rfl

/-- The digit string of `n` reads back as `n`: the produced characters are
the uppercase hexadecimal of the number itself. -/
theorem hexVal_hexDigitsOf (n : Nat) : hexVal (hexDigitsOf n) = n := by
  induction n using Nat.strong_induction_on with
  | _ n ih =>
    by_cases h : n < 16
    · rw [hexDigitsOf_base n h]
      show 16 * 0 + hexDigitVal (hexDigitChar n) = n
      rw [hexDigitVal_hexDigitChar n h]
      omega
    · rw [hexDigitsOf_step n h, hexVal_append_digit,
        ih (n / 16) (Nat.div_lt_self (by omega) (by omega)),
        hexDigitVal_hexDigitChar (n % 16) (Nat.mod_lt n (by omega))]
      omega

/-- Numbers above `0xFF` need at least three hexadecimal digits. -/
theorem hexDigitsOf_length_big (n : Nat) (h : 255 < n) :
    3 ≤ (hexDigitsOf n).length := by
  have h1 : ¬ n < 16 := by omega
  have h2 : ¬ n / 16 < 16 := by
    have := Nat.div_le_div_right (c := 16) (Nat.succ_le_of_lt h)
    omega
  rw [hexDigitsOf_step n h1, hexDigitsOf_step (n / 16) h2]
  have := hexDigitsOf_length_pos (n / 16 / 16)
  simp only [List.length_append, List.length_cons, List.length_nil]
  omega

/-- Leading `'0'` padding does not change the value read back. -/
theorem hexVal_pad (k : Nat) (ds : List Char) :
    hexVal (List.replicate k '0' ++ ds) = hexVal ds := by
  have hz : ∀ j, List.foldl (fun v c => 16 * v + hexDigitVal c) 0
      (List.replicate j '0') = 0 := by
    intro j
    induction j with
    | zero => rfl
    | succ j ihj =>
      rw [List.replicate_succ, List.foldl_cons]
      have : (16 * 0 + hexDigitVal '0') = 0 := by decide
      simpa [this] using ihj
  unfold hexVal
  rw [List.foldl_append, hz k]

/-- Rust `{:02X}` output: at least two uppercase hexadecimal digits reading
back as `n`, strictly more than two when `n > 0xFF`. -/
theorem rustHex02X_spec (n : Nat) :
    2 ≤ (rustHex02X n).length
    ∧ hexVal (rustHex02X n) = n
    ∧ (∀ c ∈ rustHex02X n, ('0' ≤ c ∧ c ≤ '9') ∨ ('A' ≤ c ∧ c ≤ 'F'))
    ∧ (255 < n → 2 < (rustHex02X n).length) := by
  have hpos := hexDigitsOf_length_pos n
  refine ⟨?_, ?_, ?_, ?_⟩
  · unfold rustHex02X
    simp only [List.length_append, List.length_replicate]
    omega
  · unfold rustHex02X
    rw [hexVal_pad, hexVal_hexDigitsOf]
  · unfold rustHex02X
    intro c hc
    rcases List.mem_append.mp hc with hc1 | hc2
    · rcases List.eq_of_mem_replicate hc1 with rfl
      exact Or.inl (by decide)
    · exact hexDigitsOf_shape n c hc2
  · intro hbig
    have h3 := hexDigitsOf_length_big n hbig
    unfold rustHex02X
    simp only [List.length_append, List.length_replicate]
    omega

/-- C10: the query encoder leaves ASCII alphanumerics and `-`, `_`, `.`,
`~` unchanged, maps space to `"+"`, and maps every other character to `"%"`
followed by the uppercase hexadecimal of its Unicode code point (digits in
`0`-`9A-F`, reading back as the code point, zero-padded to at least two
digits); every character with code point above `U+00FF` produces an escape
with more than two hexadecimal digits — the code point itself is encoded,
never its UTF-8 bytes. -/
theorem C10_urlencoding_character_map (c : Char) :
    (('a' ≤ c ∧ c ≤ 'z') ∨ ('A' ≤ c ∧ c ≤ 'Z') ∨ ('0' ≤ c ∧ c ≤ '9')
        ∨ c = '-' ∨ c = '_' ∨ c = '.' ∨ c = '~' →
      encodeChar c = String.singleton c)
    ∧ (c = ' ' → encodeChar c = "+")
    ∧ (¬ (('a' ≤ c ∧ c ≤ 'z') ∨ ('A' ≤ c ∧ c ≤ 'Z') ∨ ('0' ≤ c ∧ c ≤ '9')
          ∨ c = '-' ∨ c = '_' ∨ c = '.' ∨ c = '~') → c ≠ ' ' →
      encodeChar c = String.mk ('%' :: rustHex02X c.toNat)
      ∧ 2 ≤ (rustHex02X c.toNat).length
      ∧ hexVal (rustHex02X c.toNat) = c.toNat
      ∧ ∀ d ∈ rustHex02X c.toNat,
          ('0' ≤ d ∧ d ≤ '9') ∨ ('A' ≤ d ∧ d ≤ 'F'))
    ∧ (255 < c.toNat →
      encodeChar c = String.mk ('%' :: rustHex02X c.toNat)
      ∧ 2 < (rustHex02X c.toNat).length) := by
  have hspec := rustHex02X_spec c.toNat
  refine ⟨fun h => ?_, fun h => ?_, fun h1 h2 => ?_, fun hbig => ?_⟩
  · unfold encodeChar
    rw [if_pos h]
  · subst h
    decide
  · unfold encodeChar
    rw [if_neg h1, if_neg h2]
    exact ⟨rfl, hspec.1, hspec.2.1, hspec.2.2.1⟩
  · have h2 : c ≠ ' ' := by
      rintro rfl
      exact absurd hbig (by decide)
    have h1 : ¬ (('a' ≤ c ∧ c ≤ 'z') ∨ ('A' ≤ c ∧ c ≤ 'Z')
        ∨ ('0' ≤ c ∧ c ≤ '9')
        ∨ c = '-' ∨ c = '_' ∨ c = '.' ∨ c = '~') := by
      rintro (⟨ha, hb⟩ | ⟨ha, hb⟩ | ⟨ha, hb⟩ | rfl | rfl | rfl | rfl)
      · have hc : c.toNat ≤ 122 := hb
        omega
      · have hc : c.toNat ≤ 90 := hb
        omega
      · have hc : c.toNat ≤ 57 := hb
        omega
      · exact absurd hbig (by decide)
      · exact absurd hbig (by decide)
      · exact absurd hbig (by decide)
      · exact absurd hbig (by decide)
    unfold encodeChar
    rw [if_neg h1, if_neg h2]
    exact ⟨rfl, hspec.2.2.2 hbig⟩

/-- C10, witness: space encodes as `"+"`, and `'€'` (code point `0x20AC`)
encodes as the four-digit escape `"%20AC"`. -/
theorem C10_urlencoding_character_map_witness :
    encodeChar ' ' = "+"
    ∧ encodeChar '€' = String.mk ['%', '2', '0', 'A', 'C']
    ∧ 2 < (rustHex02X (Char.toNat '€')).length := by
  have hs := C10_urlencoding_character_map ' '
  have he := C10_urlencoding_character_map '€'
  have he4 := he.2.2.2 (by decide)
  refine ⟨hs.2.1 rfl, ?_, he4.2⟩
  rw [he4.1]
  decide

/-- The scenario state of C1: current folder `/ws`, empty workspace index,
nothing selected, empty request name. -/
def stC1 : AppState :=
  { current_folder := some "/ws"
    saved_requests := []
    selected_request := none
    name := ""
    method := .Get
    url := ""
    body := ""
    headers := [] }

/-- C1, counterexample: saving with folder `/ws`, empty name, and zero
entries does not write `/ws/New Request 1.json` — the default name
`"New Request 1"` has its spaces replaced by `-` during filename
synthesis, so the file written is `/ws/New-Request-1.json`. -/
theorem C1_counterexample :
    (save_request stC1 []).map (fun r => fsHas r.2 "New Request 1.json") =
      some false
    ∧ (save_request stC1 []).map (fun r => fsHas r.2 "New-Request-1.json") =
      some true := by
  constructor
  · decide
  · decide

/-- C1, amended: saving with `current_folder = "/ws"`, name `""`, and zero
existing entries writes `/ws/New-Request-1.json` (content: the default
name `"New Request 1"`, method GET) and afterwards selects index 0, the
entry for that just-written path. -/
theorem C1_save_default_name :
    save_request stC1 [] = some
      ({ stC1 with
          saved_requests :=
            [{ name := "New-Request-1"
               path := "/ws/New-Request-1.json"
               method := some .Get }]
          selected_request := some 0 },
        [("New-Request-1.json",
          { name := "New Request 1", method := "GET", url := "",
            headers := [], body := "" })]) := by
  decide

/-- Soundness of the last-dot splitter: a successful split reassembles to
the original character list. -/
theorem lastDotSplit_sound (cs : List Char) :
    ∀ b a, lastDotSplit cs = some (b, a) → cs = b ++ '.' :: a := by
  induction cs with
  | nil =>
    intro b a h
    simp [lastDotSplit] at h
  | cons c rest ih =>
    intro b a h
    simp only [lastDotSplit] at h
    cases hrest : lastDotSplit rest with
    | some p =>
      rcases p with ⟨b1, a1⟩
      rw [hrest] at h
      simp only [Option.some.injEq, Prod.mk.injEq] at h
      rcases h with ⟨hb, ha⟩
      have hr := ih b1 a1 hrest
      rw [← hb, ← ha, hr]
      rfl
    | none =>
      rw [hrest] at h
      by_cases hc : c = '.'
      · rw [if_pos hc] at h
        simp only [Option.some.injEq, Prod.mk.injEq] at h
        rcases h with ⟨hb, ha⟩
        subst hc
        rw [← hb, ← ha]
        rfl
      · rw [if_neg hc] at h
        exact absurd h (by simp)

/-- Structure of a file name with a recognized extension: a non-empty stem
followed by a dot and the extension, with the stem reported by
`fileStem`. -/
theorem fileExt_structure (fn ext : String) (h : fileExt fn = some ext) :
    ∃ b, b ≠ [] ∧ fn.data = b ++ '.' :: ext.data
      ∧ fileStem fn = String.mk b := by
  unfold fileExt fileSplit at h
  cases hls : lastDotSplit fn.data with
  | none =>
    simp only [hls] at h
    simp at h
  | some p =>
    rcases p with ⟨b, a⟩
    simp only [hls] at h
    by_cases hb : b = []
    · simp only [if_pos hb] at h
      simp at h
    · simp only [if_neg hb] at h
      simp only [Option.map_some', Option.some.injEq] at h
      have ha : a = ext.data := by
        have hd := congrArg String.data h
        simpa using hd
      refine ⟨b, hb, ?_, ?_⟩
      · rw [lastDotSplit_sound fn.data b a hls, ha]
      · unfold fileStem
        simp only [fileSplit, hls, if_neg hb]

/-- Scanning a folder holding a single eligible file yields exactly its
entry. -/
theorem scan_folder_singleton (folder fn : String) (sr : SavedRequest)
    (h : eligibleExtB fn = true) :
    scan_folder folder [(fn, sr)] =
      [{ name := fileStem fn
         path := joinPath folder fn
         method := parse_method_str sr.method }] := by
  simp [scan_folder, List.filter_cons, h, sortBy, insertSorted]

/-- Joined paths under the same folder differ when the file names differ. -/
theorem joinPath_ne (folder x y : String) (h : x.data ≠ y.data) :
    joinPath folder x ≠ joinPath folder y := by
  intro hc
  have hcd := congrArg String.data hc
  have hx : (folder ++ "/").data ++ x.data = (folder ++ "/").data ++ y.data := by
    simpa [joinPath, String.data_append] using hcd
  exact h (List.append_cancel_left hx)

/-- C9: the deletion target path is derived from the entry's display name
(current folder joined with the name, `.json` appended unless already
present), not from the entry's stored path; hence for every entry scanned
from a `.yaml` or `.yml` file, the path handed to the file removal differs
from the entry's actual file path. -/
theorem C9_delete_path_derived_from_name (folder fn : String)
    (sr : SavedRequest)
    (hext : fileExt fn = some "yaml" ∨ fileExt fn = some "yml") :
    ∀ e ∈ scan_folder folder [(fn, sr)],
      joinPath folder (delete_target_name e.name) ≠ e.path := by
  have helig : eligibleExtB fn = true := by
    rcases hext with hy | hy <;> simp [eligibleExtB, hy]
  intro e he
  rw [scan_folder_singleton folder fn sr helig] at he
  have he2 := List.mem_singleton.mp he
  subst he2
  show joinPath folder (delete_target_name (fileStem fn)) ≠ joinPath folder fn
  rcases hext with hy | hy
  · obtain ⟨b, hb, hdata, hstem⟩ := fileExt_structure fn "yaml" hy
    rw [hstem]
    apply joinPath_ne
    rw [hdata]
    unfold delete_target_name
    by_cases hj : strEndsWith (String.mk b) ".json"
    · rw [if_pos hj]
      intro hc
      have hlen := congrArg List.length hc
      simp [List.length_append] at hlen
    · rw [if_neg hj]
      intro hc
      have hc2 : b ++ ".json".data = b ++ '.' :: "yaml".data := by
        simp only [String.data_append] at hc
        exact hc
      have hc3 := List.append_cancel_left hc2
      exact absurd hc3 (by decide)
  · obtain ⟨b, hb, hdata, hstem⟩ := fileExt_structure fn "yml" hy
    rw [hstem]
    apply joinPath_ne
    rw [hdata]
    unfold delete_target_name
    by_cases hj : strEndsWith (String.mk b) ".json"
    · rw [if_pos hj]
      intro hc
      have hlen := congrArg List.length hc
      simp [List.length_append] at hlen
    · rw [if_neg hj]
      intro hc
      have hc2 : b ++ ".json".data = b ++ '.' :: "yml".data := by
        simp only [String.data_append] at hc
        exact hc
      have hc3 := List.append_cancel_left hc2
      exact absurd hc3 (by decide)

/-- C9, witness: the entry scanned from `a.yaml` under `/ws` has removal
target `/ws/a.json`, which is not its actual path `/ws/a.yaml`. -/
theorem C9_delete_path_derived_from_name_witness :
    joinPath "/ws" (delete_target_name "a") ≠ "/ws/a.yaml" := by
  have h := C9_delete_path_derived_from_name "/ws" "a.yaml" sr0
    (Or.inl (by decide))
  have hm : ({ name := "a", path := "/ws/a.yaml", method := some .Get } :
      FileEntry) ∈ scan_folder "/ws" [("a.yaml", sr0)] := by decide
  exact h _ hm

/-- Inserting a key not present in the map appends the pair. -/
theorem hmInsert_fresh (m : List (String × String)) (k v : String)
    (h : ∀ kv ∈ m, kv.1 ≠ k) : hmInsert m k v = m ++ [(k, v)] := by
  have hany : m.any (fun kv => kv.1 = k) = false := by
    rw [List.any_eq_false]
    intro x hx
    simpa using h x hx
  simp [hmInsert, hany]

/-- Folding rows with pairwise-distinct non-empty keys into a map (from an
accumulator whose keys are disjoint from the rows') appends their pairs in
order. -/
theorem collapse_foldl (rows : List KVRow) :
    ∀ m : List (String × String),
      (∀ r ∈ rows, rustIsEmpty r.key = false) →
      rows.Pairwise (fun r1 r2 => r1.key ≠ r2.key) →
      (∀ r ∈ rows, ∀ kv ∈ m, kv.1 ≠ r.key) →
      rows.foldl (fun m kv =>
          if rustIsEmpty kv.key then m else hmInsert m kv.key kv.value) m
        = m ++ rows.map (fun r => (r.key, r.value)) := by
  induction rows with
  | nil =>
    intro m _ _ _
    simp
  | cons r rows ih =>
    intro m hne hpw hm
    rw [List.foldl_cons]
    have hr : rustIsEmpty r.key = false := hne r (by simp)
    have hpw1 := (List.pairwise_cons.mp hpw).1
    have hpw2 := (List.pairwise_cons.mp hpw).2
    have hfresh : ∀ kv ∈ m, kv.1 ≠ r.key :=
      fun kv hkv => hm r (by simp) kv hkv
    have hstep : (if rustIsEmpty r.key then m
        else hmInsert m r.key r.value) = m ++ [(r.key, r.value)] := by
      rw [if_neg (by simp [hr]), hmInsert_fresh m r.key r.value hfresh]
    rw [hstep]
    rw [ih (m ++ [(r.key, r.value)])
      (fun r2 h2 => hne r2 (List.mem_cons_of_mem r h2)) hpw2 ?hdisj]
    · rw [List.append_assoc]
      rfl
    case hdisj =>
      intro r2 h2 kv hkv
      rcases List.mem_append.mp hkv with hin | hin
      · exact hm r2 (List.mem_cons_of_mem r h2) kv hin
      · rcases List.mem_singleton.mp hin with rfl
        exact hpw1 r2 h2
  
/-- With pairwise-distinct non-empty keys, the serialized header map holds
exactly the rows' key/value pairs in order. -/
theorem collapse_headers_distinct (rows : List KVRow)
    (hne : ∀ r ∈ rows, rustIsEmpty r.key = false)
    (hpw : rows.Pairwise (fun r1 r2 => r1.key ≠ r2.key)) :
    collapse_headers rows = rows.map (fun r => (r.key, r.value)) := by
  have h := collapse_foldl rows [] hne hpw (by simp)
  simpa [collapse_headers] using h

/-- The effective request name is never the empty string. -/
theorem effective_name_data_ne_nil (nm : String) (count : Nat) :
    (effective_name nm count).data ≠ [] := by
  unfold effective_name
  by_cases h : rustIsEmpty nm
  · rw [if_pos (by simp [h])]
    intro hc
    have hl := congrArg List.length hc
    rw [String.data_append, List.length_append] at hl
    simp only [List.length_nil] at hl
    have h12 : ("New Request ").data.length = 12 := by decide
    rw [h12] at hl
    omega
  · rw [if_neg (by simp [h])]
    intro hc
    exact h (by simp [rustIsEmpty, hc])

/-- The sanitized stem contains no dot: every character maps to itself
(alphanumeric, hence not `'.'`) or to `'-'`. -/
theorem safe_stem_no_dot (l : List Char) :
    '.' ∉ l.map (fun c => if c.isAlphanum then c else '-') := by
  intro h
  rcases List.mem_map.mp h with ⟨x, _, hfx⟩
  by_cases ha : x.isAlphanum
  · rw [if_pos ha] at hfx
    rw [hfx] at ha
    exact absurd ha (by decide)
  · rw [if_neg ha] at hfx
    exact absurd hfx (by decide)

/-- A dot-free character list has no last-dot split. -/
theorem lastDotSplit_no_dot (cs : List Char) (h : '.' ∉ cs) :
    lastDotSplit cs = none := by
  induction cs with
  | nil => rfl
  | cons c rest ih =>
    simp only [lastDotSplit]
    rw [ih (fun hm => h (List.mem_cons_of_mem c hm))]
    rw [if_neg (fun hc => h (by rw [hc]; exact List.mem_cons_self _ _))]

/-- Appending a dot and a dot-free extension splits exactly there. -/
theorem lastDotSplit_append (b a : List Char) (ha : '.' ∉ a) :
    lastDotSplit (b ++ '.' :: a) = some (b, a) := by
  induction b with
  | nil =>
    simp only [List.nil_append, lastDotSplit]
    rw [lastDotSplit_no_dot a ha]
    rfl
  | cons c b ih =>
    have hstep : (c :: b) ++ '.' :: a = c :: (b ++ '.' :: a) := rfl
    rw [hstep]
    show lastDotSplit (c :: (b ++ '.' :: a)) = some (c :: b, a)
    simp only [lastDotSplit]
    rw [ih]

/-- A synthesized save file name has extension `json` and its stem is the
sanitized request name. -/
theorem fileExt_save_target (n : String) (hne : n.data ≠ []) :
    fileExt (save_target_name n) = some "json"
    ∧ fileStem (save_target_name n) =
        String.mk (n.data.map (fun c => if c.isAlphanum then c else '-')) := by
  have hdata : (save_target_name n).data =
      n.data.map (fun c => if c.isAlphanum then c else '-')
        ++ '.' :: "json".data := by
    unfold save_target_name
    rw [String.data_append]
  have hsplit : lastDotSplit ((save_target_name n).data) =
      some (n.data.map (fun c => if c.isAlphanum then c else '-'),
        "json".data) := by
    rw [hdata]
    exact lastDotSplit_append _ _ (by decide)
  have hstem_ne : n.data.map (fun c => if c.isAlphanum then c else '-')
      ≠ [] := by
    intro hc
    exact hne (List.map_eq_nil_iff.mp hc)
  constructor
  · unfold fileExt
    simp only [fileSplit, hsplit, if_neg hstem_ne]
    decide
  · unfold fileStem
    simp only [fileSplit, hsplit, if_neg hstem_ne]

/-- Recovering a file's bare name from its joined path (inverse of
`joinPath` for the folder-local filesystem model). -/
theorem stripFolder_joinPath (folder fn : String) :
    stripFolder folder (joinPath folder fn) = fn := by
  unfold stripFolder joinPath
  have hd : ((folder ++ "/" ++ fn)).data =
      (folder.data ++ ("/").data) ++ fn.data := by
    rw [String.data_append, String.data_append]
  rw [hd]
  have hlen : folder.data.length + 1 = (folder.data ++ ("/").data).length := by
    rw [List.length_append]
    have h1 : ("/").data.length = 1 := by decide
    omega
  rw [hlen, List.drop_left]

/-- Loading back a stored method string produced by `as_str` recovers the
method. -/
theorem load_method_as_str (m : HttpMethod) : load_method_of m.as_str = m := by
  cases m <;> decide

/-- Saving and then loading the entry the save selected (the entry whose
path matches the just-written file), as one pipeline: `none` when the save
panicked or selected nothing. -/
def save_then_load (st : AppState) (fs : Fs) : Option AppState :=
  (save_request st fs).bind (fun r =>
    r.1.selected_request.map (fun idx => load_request r.1 r.2 idx))

/-- An editor state over an empty workspace index with nothing selected:
the state from which a fresh save proceeds. -/
def mk_editor_state (folder nm : String) (method : HttpMethod)
    (url body : String) (rows : List KVRow) : AppState :=
  { current_folder := some folder
    saved_requests := []
    selected_request := none
    name := nm
    method := method
    url := url
    body := body
    headers := rows }


/-- C5, amended: for every request whose header rows have pairwise-distinct
non-empty keys, saving it fresh (current folder set, nothing selected,
empty workspace) and then loading the entry the save wrote yields the same
method, URL, and body, and the loaded header key/value pairs — ignoring
the trailing empty row appended by load — are a permutation of the
original rows' key/value pairs (enabled flags are not compared: save
stores disabled rows too and load re-enables everything). -/
theorem C5_save_load_round_trip (folder nm url body : String)
    (method : HttpMethod) (rows : List KVRow)
    (hkeys : ∀ r ∈ rows, rustIsEmpty r.key = false)
    (hdist : rows.Pairwise (fun r1 r2 => r1.key ≠ r2.key)) :
    ∃ st2 : AppState,
      save_then_load (mk_editor_state folder nm method url body rows) []
        = some st2
      ∧ st2.method = method
      ∧ st2.url = url
      ∧ st2.body = body
      ∧ (st2.headers.dropLast.map (fun h => (h.key, h.value))).Perm
          (rows.map (fun r => (r.key, r.value))) := by
  have hne : (effective_name nm 0).data ≠ [] :=
    effective_name_data_ne_nil nm 0
  set stv : AppState := mk_editor_state folder nm method url body rows
    with hstv
  set reqv : SavedRequest := saved_record_of stv with hreqv
  set fnv : String := save_target_name (effective_name nm 0) with hfnv
  set entryv : FileEntry :=
    { name := fileStem fnv
      path := joinPath folder fnv
      method := parse_method_str reqv.method } with hentryv
  set stA : AppState :=
    { stv with saved_requests := [entryv], selected_request := some 0 }
    with hstA
  obtain ⟨hext, _⟩ := fileExt_save_target (effective_name nm 0) hne
  have helig : eligibleExtB fnv = true := by
    rw [hfnv]
    simp [eligibleExtB, hext]
  have h1 : save_request stv [] =
      some (save_write_rescan folder fnv reqv stv []) := rfl
  have hscanned : scan_folder folder (fsWrite [] fnv reqv) = [entryv] :=
    scan_folder_singleton folder fnv reqv helig
  have hfound : List.findIdx? (fun e => e.path == joinPath folder fnv)
      [entryv] = some 0 := by
    simp [List.findIdx?, hentryv]
  have h2 : save_write_rescan folder fnv reqv stv [] =
      (stA, [(fnv, reqv)]) := by
    simp only [save_write_rescan]
    rw [hscanned, hfound]
    rfl
  have hstrip : stripFolder folder (joinPath folder fnv) = fnv :=
    stripFolder_joinPath folder fnv
  have hget : fsGet [(fnv, reqv)] fnv = some reqv := by
    simp [fsGet, List.find?]
  have hmid : load_request stA [(fnv, reqv)] 0 =
      (match fsGet [(fnv, reqv)]
          (stripFolder folder (joinPath folder fnv)) with
        | none => stA
        | some request =>
          { stA with
            name := request.name
            method := load_method_of request.method
            url := request.url
            body :=
              if ¬ rustIsEmpty request.body then request.body else stA.body
            headers :=
              request.headers.map
                  (fun kv => (⟨kv.1, kv.2, true⟩ : KVRow))
                ++ [(⟨"", "", true⟩ : KVRow)]
            selected_request := some 0 }) := rfl
  rw [hstrip, hget] at hmid
  have h3 : load_request stA [(fnv, reqv)] 0 =
      { stA with
        name := reqv.name
        method := load_method_of reqv.method
        url := reqv.url
        body := if ¬ rustIsEmpty reqv.body then reqv.body else stA.body
        headers :=
          reqv.headers.map (fun kv => (⟨kv.1, kv.2, true⟩ : KVRow))
            ++ [(⟨"", "", true⟩ : KVRow)]
        selected_request := some 0 } := hmid
  have hall : save_then_load stv [] = some
      ({ stA with
        name := reqv.name
        method := load_method_of reqv.method
        url := reqv.url
        body := if ¬ rustIsEmpty reqv.body then reqv.body else stA.body
        headers :=
          reqv.headers.map (fun kv => (⟨kv.1, kv.2, true⟩ : KVRow))
            ++ [(⟨"", "", true⟩ : KVRow)]
        selected_request := some 0 }) := by
    unfold save_then_load
    rw [h1, h2]
    show some (load_request stA [(fnv, reqv)] 0) = _
    rw [h3]
  refine ⟨_, hall, ?_, ?_, ?_, ?_⟩
  · show load_method_of reqv.method = method
    exact load_method_as_str method
  · show reqv.url = url
    rfl
  · show (if ¬ rustIsEmpty reqv.body then reqv.body else stA.body) = body
    exact ite_self body
  · show ((reqv.headers.map (fun kv => (⟨kv.1, kv.2, true⟩ : KVRow))
        ++ [(⟨"", "", true⟩ : KVRow)]).dropLast.map
          (fun h => (h.key, h.value))).Perm
        (rows.map (fun r => (r.key, r.value)))
    have hh : ((reqv.headers.map (fun kv => (⟨kv.1, kv.2, true⟩ : KVRow))
        ++ [(⟨"", "", true⟩ : KVRow)]).dropLast.map
          (fun h => (h.key, h.value)))
        = rows.map (fun r => (r.key, r.value)) := by
      rw [List.dropLast_concat, List.map_map]
      have hcomp : ((fun h : KVRow => (h.key, h.value)) ∘
          (fun kv : String × String => (⟨kv.1, kv.2, true⟩ : KVRow))) =
          id := funext fun kv => rfl
      rw [hcomp, List.map_id]
      show collapse_headers rows = rows.map (fun r => (r.key, r.value))
      exact collapse_headers_distinct rows hkeys hdist
    rw [hh]

/-- Editor state with two header rows sharing the key `"a"`: the
round-trip counterexample. -/
def stC5x : AppState :=
  mk_editor_state "/ws" "r" .Get "u" "b"
    [⟨"a", "1", true⟩, ⟨"a", "2", true⟩]

/-- C5, counterexample: with duplicate header keys `("a","1")`, `("a","2")`,
the saved map collapses to last-write-wins, so the loaded header pairs are
`[("a","2")]` — not a permutation of the original pair multiset, refuting
the round-trip claim for arbitrary Requests. -/
theorem C5_counterexample :
    (save_then_load stC5x []).map
        (fun st2 => st2.headers.dropLast.map (fun h => (h.key, h.value)))
      = some [("a", "2")]
    ∧ ¬ (([("a", "2")] : List (String × String)).Perm
        [("a", "1"), ("a", "2")]) := by
  constructor
  · decide
  · decide

/-- C5, witness: the amended round-trip applied to the concrete request
`POST http://u` with body `"bb"` and one header row `("h","v")`. -/
theorem C5_save_load_round_trip_witness :
    (save_then_load (mk_editor_state "/ws" "r" HttpMethod.Post "http://u"
        "bb" [⟨"h", "v", true⟩]) []).map
        (fun st2 => (st2.method, st2.url, st2.body,
          st2.headers.dropLast.map (fun h => (h.key, h.value))))
      = some (HttpMethod.Post, "http://u", "bb", [("h", "v")]) := by
  obtain ⟨st2, heq, hm, hu, hb, hp⟩ :=
    C5_save_load_round_trip "/ws" "r" "http://u" "bb" HttpMethod.Post
      [⟨"h", "v", true⟩] (by decide) (by decide)
  rw [heq]
  simp only [Option.map_some']
  rw [hm, hu, hb, List.perm_singleton.mp hp]
